import Mathlib

/-!
Verification of the leave-optimisation core of Smart-Leave-Planner.

The embedding mirrors `utils.py`.  Calendar dates are triples
(year, month, day) of the proleptic Gregorian calendar exactly as in
CPython's `datetime.date`; `toOrdinal` is CPython's `date.toordinal`
(days since 0001-01-01, which has ordinal 1) and `weekday` is
`date.weekday()` (Monday = 0 … Sunday = 6).  The `holidays` mapping of
the external `holidays` library is modelled as the input list of its
keys, in iteration order; holiday names feed only the presentation-only
`description` field, which no selection logic reads, so it is omitted
from the `Opportunity` record.
-/

structure Date where
  year : ℕ
  month : ℕ
  day : ℕ
deriving DecidableEq, Repr

/-- Gregorian leap-year rule, as in `calendar.isleap`. -/
def isLeap (y : ℕ) : Bool :=
  y % 4 = 0 && (y % 100 ≠ 0 || y % 400 = 0)

/-- Length of month `m` of year `y` (0 for `m` outside 1..12). -/
def daysInMonth (y m : ℕ) : ℕ :=
  match m with
  | 1 => 31
  | 2 => if isLeap y then 29 else 28
  | 3 => 31
  | 4 => 30
  | 5 => 31
  | 6 => 30
  | 7 => 31
  | 8 => 31
  | 9 => 30
  | 10 => 31
  | 11 => 30
  | 12 => 31
  | _ => 0

/-- Number of days in year `y` that precede month `m` (CPython
`_days_before_month`, cumulated). -/
def daysBeforeMonth (y : ℕ) : ℕ → ℕ
  | 0 => 0
  | m + 1 => daysBeforeMonth y m + daysInMonth y m

/-- Number of days before January 1 of year `y` (CPython
`_days_before_year`). -/
def daysBeforeYear (y : ℕ) : ℕ :=
  365 * (y - 1) + (y - 1) / 4 + (y - 1) / 400 - (y - 1) / 100

/-- CPython `date.toordinal`: 0001-01-01 is day 1. -/
def toOrdinal (x : Date) : ℕ :=
  daysBeforeYear x.year + daysBeforeMonth x.year x.month + x.day

/-- CPython `date.weekday()`: Monday = 0 … Sunday = 6
(0001-01-01 is a Monday). -/
def weekday (x : Date) : ℕ :=
  (toOrdinal x + 6) % 7

/-- Successor day (`date + timedelta(days=1)`). -/
def nextDay (x : Date) : Date :=
  if x.day < daysInMonth x.year x.month then ⟨x.year, x.month, x.day + 1⟩
  else if x.month < 12 then ⟨x.year, x.month + 1, 1⟩
  else ⟨x.year + 1, 1, 1⟩

/-- Predecessor day (`date - timedelta(days=1)`). -/
def prevDay (x : Date) : Date :=
  if 1 < x.day then ⟨x.year, x.month, x.day - 1⟩
  else if 1 < x.month then ⟨x.year, x.month - 1, daysInMonth x.year (x.month - 1)⟩
  else ⟨x.year - 1, 12, 31⟩

/-- The type invariant of a CPython `datetime.date` value. -/
def ValidDate (x : Date) : Prop :=
  1 ≤ x.year ∧ 1 ≤ x.month ∧ x.month ≤ 12 ∧ 1 ≤ x.day ∧ x.day ≤ daysInMonth x.year x.month

instance (x : Date) : Decidable (ValidDate x) := by
  unfold ValidDate; infer_instance

/-- All dates of year `y` from January 1 to December 31 in calendar
order: the iteration `current_date = start_date; while current_date <=
end_date: … current_date += timedelta(days=1)` used by `get_weekends`
and `find_long_weekend_opportunities`. -/
def yearDays (y : ℕ) : List Date :=
  (List.range' 1 12).flatMap fun m =>
    (List.range' 1 (daysInMonth y m)).map fun d => ⟨y, m, d⟩

/-- A candidate leave plan, the dict literal built by the detection
functions.  `description` is presentation-only and not modelled. -/
structure Opportunity where
  leave_dates : List Date
  total_days_off : ℕ
  leaves_needed : ℕ
  efficiency : ℚ
deriving DecidableEq, Repr

/-- The backward walk of `analyze_bridge_before`:
`while current_date.weekday() not in [5, 6] and len(days_before) < 4`,
rendered with the remaining capacity `4 - len(days_before)` as fuel.
Returns the collected non-weekend days (in walk order, newest first,
matching the Python `append`) and the date the loop stopped on. -/
def walkBackN : ℕ → Date → List Date × Date
  | 0, cur => ([], cur)
  | n + 1, cur =>
    if weekday cur ∉ [5, 6] then
      let r := walkBackN n (prevDay cur)
      (cur :: r.1, r.2)
    else ([], cur)

/-- The forward walk of `analyze_bridge_after`, symmetric to
`walkBackN`. -/
def walkFwdN : ℕ → Date → List Date × Date
  | 0, cur => ([], cur)
  | n + 1, cur =>
    if weekday cur ∉ [5, 6] then
      let r := walkFwdN n (nextDay cur)
      (cur :: r.1, r.2)
    else ([], cur)

/-- The backward weekend-block count of `analyze_bridge_before`:
`while check_date.weekday() in [5, 6]`.  The loop is fuel-bounded; at
most two consecutive days can be weekend days, so fuel 7 is never the
reason the recursion stops. -/
def weekendWalkBack : ℕ → Date → List Date
  | 0, _ => []
  | f + 1, cur =>
    if weekday cur ∈ [5, 6] then cur :: weekendWalkBack f (prevDay cur) else []

/-- The forward weekend-block count of `analyze_bridge_after`. -/
def weekendWalkFwd : ℕ → Date → List Date
  | 0, _ => []
  | f + 1, cur =>
    if weekday cur ∈ [5, 6] then cur :: weekendWalkFwd f (nextDay cur) else []

/-- Embedding of `LeaveOptimizer.analyze_bridge_before`. -/
def analyze_bridge_before (h : Date) : Option Opportunity :=
  let w := walkBackN 4 (prevDay h)
  let days_before := w.1
  let cur := w.2
  if weekday cur ∈ [5, 6] ∧ days_before ≠ [] then
    let weekend_days := weekendWalkBack 7 cur
    let tdo := days_before.length + weekend_days.length + 1
    let ln := days_before.length
    if 0 < ln then
      some ⟨days_before, tdo, ln, (tdo : ℚ) / (ln : ℚ)⟩
    else none
  else none

/-- Embedding of `LeaveOptimizer.analyze_bridge_after`. -/
def analyze_bridge_after (h : Date) : Option Opportunity :=
  let w := walkFwdN 4 (nextDay h)
  let days_after := w.1
  let cur := w.2
  if weekday cur ∈ [5, 6] ∧ days_after ≠ [] then
    let weekend_days := weekendWalkFwd 7 cur
    let tdo := days_after.length + weekend_days.length + 1
    let ln := days_after.length
    if 0 < ln then
      some ⟨days_after, tdo, ln, (tdo : ℚ) / (ln : ℚ)⟩
    else none
  else none

/-- Embedding of `LeaveOptimizer.find_bridge_opportunities`; `holidays`
is the key list of the holiday mapping in iteration order. -/
def find_bridge_opportunities (holidays : List Date) (preferred_months : List ℕ) :
    List Opportunity :=
  holidays.flatMap fun h =>
    if h.month ∈ preferred_months then
      (analyze_bridge_before h).toList ++ (analyze_bridge_after h).toList
    else []

/-- Embedding of `LeaveOptimizer.find_long_weekend_opportunities`. -/
def find_long_weekend_opportunities (year : ℕ) (holidays : List Date)
    (preferred_months : List ℕ) : List Opportunity :=
  (yearDays year).flatMap fun cur =>
    if cur.month ∈ preferred_months then
      if weekday cur = 4 then
        let monday := nextDay (nextDay (nextDay cur))
        if monday ∉ holidays ∧ toOrdinal monday ≤ toOrdinal ⟨year, 12, 31⟩ ∧
            monday.month ∈ preferred_months then
          [⟨[monday], 4, 1, 4⟩]
        else []
      else if weekday cur = 0 then
        let friday := prevDay (prevDay (prevDay cur))
        if friday ∉ holidays ∧ toOrdinal ⟨year, 1, 1⟩ ≤ toOrdinal friday ∧
            friday.month ∈ preferred_months then
          [⟨[friday], 4, 1, 4⟩]
        else []
      else []
    else []

/-- Embedding of `LeaveOptimizer.has_date_overlap`. -/
def has_date_overlap (new_dates : List Date) (existing_ranges : List (List Date)) : Bool :=
  new_dates.any fun d => existing_ranges.any fun r => d ∈ r

/-- The selection loop of `get_optimal_leave_days`: state is
(selected_leaves, total_leaves_used, total_days_off, used_date_ranges);
the returned triple is `(selected_leaves, total_days_off,
total_leaves_used)` as in the Python `return`. -/
def select_loop (num_leaves : ℕ) :
    List Opportunity → List Date → ℕ → ℕ → List (List Date) → List Date × ℕ × ℕ
  | [], sel, used, days, _ => (sel, days, used)
  | o :: rest, sel, used, days, ranges =>
    if has_date_overlap o.leave_dates ranges = false then
      if used + o.leaves_needed ≤ num_leaves then
        select_loop num_leaves rest (sel ++ o.leave_dates) (used + o.leaves_needed)
          (days + o.total_days_off) (ranges ++ [o.leave_dates])
      else select_loop num_leaves rest sel used days ranges
    else select_loop num_leaves rest sel used days ranges

/-- Comparison used by
`all_opportunities.sort(key=lambda x: x['efficiency'], reverse=True)`:
a stable descending sort by efficiency. -/
def effDesc (a b : Opportunity) : Bool :=
  b.efficiency ≤ a.efficiency

/-- Strict comparison used for the stable insertion below. -/
def effLt (a b : Opportunity) : Bool :=
  a.efficiency < b.efficiency

/-- Stable insertion of an opportunity into a list sorted by descending
efficiency: the new element goes after exactly the elements of strictly
greater efficiency, so elements of equal efficiency keep their original
order, as with Python's stable `list.sort`. -/
def insertDesc (o : Opportunity) : List Opportunity → List Opportunity
  | [] => [o]
  | p :: rest => if effLt o p then p :: insertDesc o rest else o :: p :: rest

/-- Stable descending sort by efficiency:
`all_opportunities.sort(key=lambda x: x['efficiency'], reverse=True)`.
Python's `list.sort` is a stable sort; insertion sort with `insertDesc`
is stable as well, so both produce the same list. -/
def sortDesc : List Opportunity → List Opportunity
  | [] => []
  | o :: rest => insertDesc o (sortDesc rest)

/-- All detected opportunities, bridges first, as concatenated in
`get_optimal_leave_days`. -/
def all_opportunities (year : ℕ) (holidays : List Date) (preferred_months : List ℕ) :
    List Opportunity :=
  find_bridge_opportunities holidays preferred_months ++
    find_long_weekend_opportunities year holidays preferred_months

/-- Embedding of `LeaveOptimizer.get_optimal_leave_days`.  The
`preferred_months` parameter keeps the Python optionality: `none` is
the `preferred_months=None` default, substituted by all twelve months;
any other list — including the empty one — is used as passed. -/
def get_optimal_leave_days (year : ℕ) (holidays : List Date) (num_leaves : ℕ)
    (preferred_months : Option (List ℕ)) : List Date × ℕ × ℕ :=
  let months := preferred_months.getD (List.range' 1 12)
  let sorted := sortDesc (all_opportunities year holidays months)
  select_loop num_leaves sorted [] 0 0 []

/-- Embedding of `LeaveOptimizer.get_weekends`. -/
def get_weekends (year : ℕ) : List Date :=
  (yearDays year).filter fun d => weekday d ∈ [5, 6]

/-- Structural facts about every detected opportunity: the cost equals
the number of leave dates, between 1 and 4 leave days, the benefit is
always cost + 3 (weekend block is always two days), and the stored
efficiency is the exact quotient. -/
def OppShape (o : Opportunity) : Prop :=
  o.leaves_needed = o.leave_dates.length ∧
  1 ≤ o.leaves_needed ∧ o.leaves_needed ≤ 4 ∧
  o.total_days_off = o.leaves_needed + 3 ∧
  o.efficiency = (o.total_days_off : ℚ) / (o.leaves_needed : ℚ)

/-- The leave dates of a detected opportunity are valid weekday dates
without duplicates. -/
def OppDatesOK (o : Opportunity) : Prop :=
  (∀ d ∈ o.leave_dates, ValidDate d ∧ weekday d ≠ 5 ∧ weekday d ≠ 6) ∧ o.leave_dates.Nodup

/-- The weekend test on ordinals, as used by `get_weekends` after
unfolding `weekday`. -/
def weekendOrd (n : ℕ) : Bool :=
  decide ((n + 6) % 7 ∈ ([5, 6] : List ℕ))


/-! ## Calendar arithmetic lemmas -/

theorem isLeap_true_iff (y : ℕ) :
    isLeap y = true ↔ (4 ∣ y ∧ (¬ (100 ∣ y) ∨ 400 ∣ y)) := by
  simp [isLeap, Nat.dvd_iff_mod_eq_zero]

theorem daysBeforeMonth_13 (y : ℕ) :
    daysBeforeMonth y 13 = 365 + (if isLeap y then 1 else 0) := by
  by_cases h : isLeap y <;> simp [daysBeforeMonth, daysInMonth, h]

theorem one_le_daysInMonth (y m : ℕ) (h1 : 1 ≤ m) (h2 : m ≤ 12) :
    1 ≤ daysInMonth y m := by
  cases h : isLeap y <;> interval_cases m <;> simp [daysInMonth, h]

theorem div100_le_div4 (n : ℕ) : n / 100 ≤ n / 4 :=
  Nat.div_le_div_left (by norm_num) (by norm_num)

theorem daysBeforeYear_succ (y : ℕ) (hy : 1 ≤ y) :
    daysBeforeYear (y + 1) = daysBeforeYear y + 365 + (if isLeap y then 1 else 0) := by
  obtain ⟨n, rfl⟩ : ∃ n, y = n + 1 := ⟨y - 1, by omega⟩
  unfold daysBeforeYear
  simp only [Nat.add_sub_cancel]
  rw [Nat.succ_div n 4, Nat.succ_div n 400, Nat.succ_div n 100]
  have hle : n / 100 ≤ n / 4 := div100_le_div4 n
  have hl : isLeap (n + 1) = true ↔ (4 ∣ (n + 1) ∧ (¬ (100 ∣ (n + 1)) ∨ 400 ∣ (n + 1))) :=
    isLeap_true_iff (n + 1)
  have h41 : (100 : ℕ) ∣ (n + 1) → (4 : ℕ) ∣ (n + 1) := fun h => dvd_trans (by norm_num) h
  have h42 : (400 : ℕ) ∣ (n + 1) → (100 : ℕ) ∣ (n + 1) := fun h => dvd_trans (by norm_num) h
  by_cases h4 : (4 : ℕ) ∣ (n + 1) <;> by_cases h100 : (100 : ℕ) ∣ (n + 1) <;>
    by_cases h400 : (400 : ℕ) ∣ (n + 1) <;>
    simp [h4, h100, h400, hl] <;> omega

theorem daysBeforeYear_ge (y : ℕ) (hy : 2 ≤ y) : 365 ≤ daysBeforeYear y := by
  have hle : (y - 1) / 100 ≤ (y - 1) / 4 := div100_le_div4 (y - 1)
  unfold daysBeforeYear
  have h1 : 1 ≤ y - 1 := by omega
  have : 365 * 1 ≤ 365 * (y - 1) := Nat.mul_le_mul_left 365 h1
  omega

theorem toOrdinal_nextDay (x : Date) (hx : ValidDate x) :
    ValidDate (nextDay x) ∧ toOrdinal (nextDay x) = toOrdinal x + 1 := by
  obtain ⟨hy, hm1, hm2, hd1, hd2⟩ := hx
  unfold nextDay
  split_ifs with h1 h2
  · dsimp only [ValidDate, toOrdinal]
    exact ⟨⟨hy, hm1, hm2, by omega, by omega⟩, by omega⟩
  · have hd : x.day = daysInMonth x.year x.month := by omega
    have hdbm : daysBeforeMonth x.year (x.month + 1) =
        daysBeforeMonth x.year x.month + daysInMonth x.year x.month := rfl
    have hpos : 1 ≤ daysInMonth x.year (x.month + 1) :=
      one_le_daysInMonth x.year (x.month + 1) (by omega) (by omega)
    dsimp only [ValidDate, toOrdinal]
    exact ⟨⟨hy, by omega, by omega, le_refl 1, hpos⟩, by omega⟩
  · have hm : x.month = 12 := by omega
    rw [hm] at hd2 h1
    have hdim12 : daysInMonth x.year 12 = 31 := rfl
    have hd : x.day = 31 := by omega
    have hdbm1 : daysBeforeMonth (x.year + 1) 1 = 0 := rfl
    have hdbm13 : daysBeforeMonth x.year 13 = 365 + (if isLeap x.year then 1 else 0) :=
      daysBeforeMonth_13 x.year
    have hdbm13' : daysBeforeMonth x.year 13 =
        daysBeforeMonth x.year 12 + daysInMonth x.year 12 := rfl
    have hdim1 : daysInMonth (x.year + 1) 1 = 31 := rfl
    have hsucc := daysBeforeYear_succ x.year hy
    generalize (if isLeap x.year then 1 else 0) = t at hsucc hdbm13
    dsimp only [ValidDate, toOrdinal]
    rw [hm, hd]
    exact ⟨⟨by omega, by norm_num, by norm_num, by norm_num, by omega⟩, by omega⟩

theorem toOrdinal_prevDay (x : Date) (hx : ValidDate x) (hord : 2 ≤ toOrdinal x) :
    ValidDate (prevDay x) ∧ toOrdinal (prevDay x) + 1 = toOrdinal x := by
  obtain ⟨hy, hm1, hm2, hd1, hd2⟩ := hx
  unfold prevDay
  split_ifs with h1 h2
  · dsimp only [ValidDate, toOrdinal]
    exact ⟨⟨hy, hm1, hm2, by omega, by omega⟩, by omega⟩
  · obtain ⟨k, hk⟩ : ∃ k, x.month = k + 1 := ⟨x.month - 1, by omega⟩
    have hdbm : daysBeforeMonth x.year (k + 1) =
        daysBeforeMonth x.year k + daysInMonth x.year k := rfl
    have hpos : 1 ≤ daysInMonth x.year k := one_le_daysInMonth _ _ (by omega) (by omega)
    dsimp only [ValidDate, toOrdinal]
    rw [hk]
    simp only [Nat.add_sub_cancel]
    exact ⟨⟨hy, by omega, by omega, hpos, le_refl _⟩, by omega⟩
  · have hm : x.month = 1 := by omega
    have hd : x.day = 1 := by omega
    have hdbm1 : daysBeforeMonth x.year 1 = 0 := rfl
    have hy2 : 2 ≤ x.year := by
      rcases Nat.lt_or_ge x.year 2 with hlt | hge
      · have hy1 : x.year = 1 := by omega
        rw [toOrdinal, hy1, hm, hd] at hord
        have e1 : daysBeforeYear 1 = 0 := rfl
        have e2 : daysBeforeMonth 1 1 = 0 := rfl
        omega
      · exact hge
    obtain ⟨z, hz⟩ : ∃ z, x.year = z + 1 := ⟨x.year - 1, by omega⟩
    have hz1 : 1 ≤ z := by omega
    have hsucc := daysBeforeYear_succ z hz1
    have hdbm13 : daysBeforeMonth z 13 = 365 + (if isLeap z then 1 else 0) :=
      daysBeforeMonth_13 z
    have hdbm13' : daysBeforeMonth z 13 = daysBeforeMonth z 12 + daysInMonth z 12 := rfl
    have hdim12 : daysInMonth z 12 = 31 := rfl
    have hdbm1' : daysBeforeMonth (z + 1) 1 = 0 := rfl
    generalize (if isLeap z then 1 else 0) = t at hsucc hdbm13
    dsimp only [ValidDate, toOrdinal]
    rw [hz, hm, hd]
    simp only [Nat.add_sub_cancel]
    exact ⟨⟨by omega, by norm_num, by norm_num, by norm_num, by omega⟩, by omega⟩

theorem weekday_nextDay (x : Date) (hx : ValidDate x) :
    weekday (nextDay x) = (weekday x + 1) % 7 := by
  have h := (toOrdinal_nextDay x hx).2
  unfold weekday
  omega

theorem weekday_prevDay (x : Date) (hx : ValidDate x) (hord : 2 ≤ toOrdinal x) :
    weekday (prevDay x) = (weekday x + 6) % 7 := by
  have h := (toOrdinal_prevDay x hx hord).2
  unfold weekday
  omega

theorem toOrdinal_ge_of_year2 (x : Date) (hx : ValidDate x) (hy : 2 ≤ x.year) :
    366 ≤ toOrdinal x := by
  obtain ⟨h1, hm1, hm2, hd1, hd2⟩ := hx
  have := daysBeforeYear_ge x.year hy
  unfold toOrdinal
  omega

/-! ## Walk and detection lemmas -/

theorem walkBackN_nil (n : ℕ) (cur : Date) (h : (walkBackN n cur).1 = []) :
    (walkBackN n cur).2 = cur := by
  cases n with
  | zero => rfl
  | succ n =>
    simp only [walkBackN] at h ⊢
    split_ifs at h ⊢ with hc
    rfl

theorem walkBackN_length (n : ℕ) (cur : Date) : (walkBackN n cur).1.length ≤ n := by
  induction n generalizing cur with
  | zero => simp [walkBackN]
  | succ n ih =>
    simp only [walkBackN]
    split_ifs with hc
    · simp
    · have := ih (prevDay cur)
      dsimp only
      simp only [List.length_cons]
      omega

theorem walkBackN_weekdays (n : ℕ) (cur : Date) :
    ∀ d ∈ (walkBackN n cur).1, weekday d ≠ 5 ∧ weekday d ≠ 6 := by
  induction n generalizing cur with
  | zero => simp [walkBackN]
  | succ n ih =>
    simp only [walkBackN]
    split_ifs with hc
    · simp
    · dsimp only
      intro d hd
      rcases List.mem_cons.mp hd with rfl | hd
      · simp at hc
        exact hc
      · exact ih (prevDay cur) d hd

theorem walkBackN_valid (n : ℕ) (cur : Date) (hv : ValidDate cur)
    (hord : 2 + n ≤ toOrdinal cur) :
    ValidDate (walkBackN n cur).2 ∧
    toOrdinal (walkBackN n cur).2 + (walkBackN n cur).1.length = toOrdinal cur ∧
    ∀ d ∈ (walkBackN n cur).1,
      ValidDate d ∧ toOrdinal d ≤ toOrdinal cur ∧ toOrdinal (walkBackN n cur).2 < toOrdinal d := by
  induction n generalizing cur with
  | zero => simp [walkBackN, hv]
  | succ n ih =>
    simp only [walkBackN]
    split_ifs with hc
    · simp [hv]
    · have hp := toOrdinal_prevDay cur hv (by omega)
      have ihp := ih (prevDay cur) hp.1 (by omega)
      dsimp only
      refine ⟨ihp.1, ?_, ?_⟩
      · simp only [List.length_cons]
        have h1 := hp.2
        have h2 := ihp.2.1
        omega
      · intro d hd
        have hfin := ihp.2.1
        rcases List.mem_cons.mp hd with rfl | hd
        · have hl := walkBackN_length n (prevDay d)
          have h2 := hp.2
          exact ⟨hv, le_refl _, by omega⟩
        · obtain ⟨hval, hle, hgt⟩ := ihp.2.2 d hd
          have h2 := hp.2
          exact ⟨hval, by omega, by omega⟩

theorem walkBackN_sorted (n : ℕ) (cur : Date) (hv : ValidDate cur)
    (hord : 2 + n ≤ toOrdinal cur) :
    List.Pairwise (fun a b => toOrdinal b < toOrdinal a) (walkBackN n cur).1 := by
  induction n generalizing cur with
  | zero => simp [walkBackN]
  | succ n ih =>
    simp only [walkBackN]
    split_ifs with hc
    · simp
    · have hp := toOrdinal_prevDay cur hv (by omega)
      have ihp := ih (prevDay cur) hp.1 (by omega)
      have hmem := (walkBackN_valid n (prevDay cur) hp.1 (by omega)).2.2
      dsimp only
      refine List.pairwise_cons.mpr ⟨?_, ihp⟩
      intro b hb
      have h1 := (hmem b hb).2.1
      have h2 := hp.2
      omega

theorem walkBackN_last (n : ℕ) (cur : Date) (x : Date)
    (h : (walkBackN n cur).1.getLast? = some x) :
    (walkBackN n cur).2 = prevDay x ∧ weekday x ≠ 5 ∧ weekday x ≠ 6 := by
  induction n generalizing cur with
  | zero => simp [walkBackN] at h
  | succ n ih =>
    simp only [walkBackN] at h ⊢
    split_ifs at h ⊢ with hc
    · simp at h
    · dsimp only at h ⊢
      rcases hl : (walkBackN n (prevDay cur)).1 with _ | ⟨a, l⟩
      · rw [hl] at h
        simp at h
        subst h
        have h2 := walkBackN_nil n (prevDay cur) hl
        simp at hc
        exact ⟨h2, hc⟩
      · rw [hl] at h
        simp only [List.getLast?_cons_cons] at h
        have hx : (walkBackN n (prevDay cur)).1.getLast? = some x := by
          rw [hl]
          exact h
        exact ih (prevDay cur) hx

theorem walkFwdN_nil (n : ℕ) (cur : Date) (h : (walkFwdN n cur).1 = []) :
    (walkFwdN n cur).2 = cur := by
  cases n with
  | zero => rfl
  | succ n =>
    simp only [walkFwdN] at h ⊢
    split_ifs at h ⊢ with hc
    rfl

theorem walkFwdN_length (n : ℕ) (cur : Date) : (walkFwdN n cur).1.length ≤ n := by
  induction n generalizing cur with
  | zero => simp [walkFwdN]
  | succ n ih =>
    simp only [walkFwdN]
    split_ifs with hc
    · simp
    · have := ih (nextDay cur)
      dsimp only
      simp only [List.length_cons]
      omega

theorem walkFwdN_weekdays (n : ℕ) (cur : Date) :
    ∀ d ∈ (walkFwdN n cur).1, weekday d ≠ 5 ∧ weekday d ≠ 6 := by
  induction n generalizing cur with
  | zero => simp [walkFwdN]
  | succ n ih =>
    simp only [walkFwdN]
    split_ifs with hc
    · simp
    · dsimp only
      intro d hd
      rcases List.mem_cons.mp hd with rfl | hd
      · simp at hc
        exact hc
      · exact ih (nextDay cur) d hd

theorem walkFwdN_valid (n : ℕ) (cur : Date) (hv : ValidDate cur) :
    ValidDate (walkFwdN n cur).2 ∧
    toOrdinal (walkFwdN n cur).2 = toOrdinal cur + (walkFwdN n cur).1.length ∧
    ∀ d ∈ (walkFwdN n cur).1,
      ValidDate d ∧ toOrdinal cur ≤ toOrdinal d ∧ toOrdinal d < toOrdinal (walkFwdN n cur).2 := by
  induction n generalizing cur with
  | zero => simp [walkFwdN, hv]
  | succ n ih =>
    simp only [walkFwdN]
    split_ifs with hc
    · simp [hv]
    · have hp := toOrdinal_nextDay cur hv
      have ihp := ih (nextDay cur) hp.1
      dsimp only
      refine ⟨ihp.1, ?_, ?_⟩
      · simp only [List.length_cons]
        have h1 := hp.2
        have h2 := ihp.2.1
        omega
      · intro d hd
        have hfin := ihp.2.1
        rcases List.mem_cons.mp hd with rfl | hd
        · have hl := walkFwdN_length n (nextDay d)
          have h2 := hp.2
          exact ⟨hv, le_refl _, by omega⟩
        · obtain ⟨hval, hle, hgt⟩ := ihp.2.2 d hd
          have h2 := hp.2
          exact ⟨hval, by omega, by omega⟩

theorem walkFwdN_sorted (n : ℕ) (cur : Date) (hv : ValidDate cur) :
    List.Pairwise (fun a b => toOrdinal a < toOrdinal b) (walkFwdN n cur).1 := by
  induction n generalizing cur with
  | zero => simp [walkFwdN]
  | succ n ih =>
    simp only [walkFwdN]
    split_ifs with hc
    · simp
    · have hp := toOrdinal_nextDay cur hv
      have ihp := ih (nextDay cur) hp.1
      have hmem := (walkFwdN_valid n (nextDay cur) hp.1).2.2
      dsimp only
      refine List.pairwise_cons.mpr ⟨?_, ihp⟩
      intro b hb
      have h1 := (hmem b hb).2.1
      have h2 := hp.2
      omega

theorem walkFwdN_last (n : ℕ) (cur : Date) (x : Date)
    (h : (walkFwdN n cur).1.getLast? = some x) :
    (walkFwdN n cur).2 = nextDay x ∧ weekday x ≠ 5 ∧ weekday x ≠ 6 := by
  induction n generalizing cur with
  | zero => simp [walkFwdN] at h
  | succ n ih =>
    simp only [walkFwdN] at h ⊢
    split_ifs at h ⊢ with hc
    · simp at h
    · dsimp only at h ⊢
      rcases hl : (walkFwdN n (nextDay cur)).1 with _ | ⟨a, l⟩
      · rw [hl] at h
        simp at h
        subst h
        have h2 := walkFwdN_nil n (nextDay cur) hl
        simp at hc
        exact ⟨h2, hc⟩
      · rw [hl] at h
        simp only [List.getLast?_cons_cons] at h
        have hx : (walkFwdN n (nextDay cur)).1.getLast? = some x := by
          rw [hl]
          exact h
        exact ih (nextDay cur) hx

theorem weekendWalkBack_len2 (cur : Date) (hv : ValidDate cur)
    (hord : 4 ≤ toOrdinal cur) (hwd : weekday cur = 6) :
    (weekendWalkBack 7 cur).length = 2 := by
  have h1 := toOrdinal_prevDay cur hv (by omega)
  have h2 := toOrdinal_prevDay (prevDay cur) h1.1 (by omega)
  have w1 : weekday (prevDay cur) = 5 := by
    have e1 := h1.2
    unfold weekday at hwd ⊢
    omega
  have w2 : weekday (prevDay (prevDay cur)) = 4 := by
    have e1 := h1.2
    have e2 := h2.2
    unfold weekday at hwd ⊢
    omega
  simp [weekendWalkBack, hwd, w1, w2]

theorem weekendWalkFwd_len2 (cur : Date) (hv : ValidDate cur)
    (hwd : weekday cur = 5) :
    (weekendWalkFwd 7 cur).length = 2 := by
  have h1 := toOrdinal_nextDay cur hv
  have h2 := toOrdinal_nextDay (nextDay cur) h1.1
  have w1 : weekday (nextDay cur) = 6 := by
    have e1 := h1.2
    unfold weekday at hwd ⊢
    omega
  have w2 : weekday (nextDay (nextDay cur)) = 0 := by
    have e1 := h1.2
    have e2 := h2.2
    unfold weekday at hwd ⊢
    omega
  simp [weekendWalkFwd, hwd, w1, w2]

theorem analyze_bridge_before_shape (h : Date) (hh : ValidDate h) (hy : 2 ≤ h.year)
    (o : Opportunity) (ho : analyze_bridge_before h = some o) :
    OppShape o ∧ OppDatesOK o := by
  have hordh : 366 ≤ toOrdinal h := toOrdinal_ge_of_year2 h hh hy
  have hp := toOrdinal_prevDay h hh (by omega)
  have hordp : 2 + 4 ≤ toOrdinal (prevDay h) := by
    have := hp.2
    omega
  have hval := walkBackN_valid 4 (prevDay h) hp.1 hordp
  have hlen := walkBackN_length 4 (prevDay h)
  have hwk := walkBackN_weekdays 4 (prevDay h)
  have hsort := walkBackN_sorted 4 (prevDay h) hp.1 hordp
  simp only [analyze_bridge_before] at ho
  split_ifs at ho with hc1 hc2
  obtain ⟨hwfin, hne⟩ := hc1
  obtain ⟨x, hx⟩ := Option.isSome_iff_exists.mp (List.getLast?_isSome.mpr hne)
  have hlast := walkBackN_last 4 (prevDay h) _ hx
  have hxmem : x ∈ (walkBackN 4 (prevDay h)).1 := by
    have hm := List.getLast_mem hne
    have hx2 := List.getLast?_eq_getLast (walkBackN 4 (prevDay h)).1 hne
    rw [hx2] at hx
    injection hx with hx
    rwa [hx] at hm
  obtain ⟨hxval, hxle, hxgt⟩ := hval.2.2 x hxmem
  have hwfin6 : weekday (walkBackN 4 (prevDay h)).2 = 6 := by
    have hpx := toOrdinal_prevDay x hxval (by omega)
    have e1 : (walkBackN 4 (prevDay h)).2 = prevDay x := hlast.1
    have e2 := hpx.2
    have e3 := hlast.2
    simp only [List.mem_cons, List.mem_singleton, List.not_mem_nil, or_false] at hwfin
    rw [e1] at hwfin ⊢
    unfold weekday at e3 hwfin ⊢
    omega
  have hordfin : 4 ≤ toOrdinal (walkBackN 4 (prevDay h)).2 := by
    have := hval.2.1
    omega
  have hblock := weekendWalkBack_len2 _ hval.1 hordfin hwfin6
  rw [hblock] at ho
  have hlenpos : 1 ≤ (walkBackN 4 (prevDay h)).1.length :=
    List.length_pos.mpr hne
  injection ho with ho
  subst ho
  refine ⟨⟨rfl, hlenpos, hlen, by dsimp only, rfl⟩, ?_, ?_⟩
  · intro d hd
    exact ⟨(hval.2.2 d hd).1, (hwk d hd).1, (hwk d hd).2⟩
  · exact hsort.imp fun {a b} hab heq => by
      rw [heq] at hab
      exact lt_irrefl _ hab

theorem analyze_bridge_after_shape (h : Date) (hh : ValidDate h)
    (o : Opportunity) (ho : analyze_bridge_after h = some o) :
    OppShape o ∧ OppDatesOK o := by
  have hp := toOrdinal_nextDay h hh
  have hval := walkFwdN_valid 4 (nextDay h) hp.1
  have hlen := walkFwdN_length 4 (nextDay h)
  have hwk := walkFwdN_weekdays 4 (nextDay h)
  have hsort := walkFwdN_sorted 4 (nextDay h) hp.1
  simp only [analyze_bridge_after] at ho
  split_ifs at ho with hc1 hc2
  obtain ⟨hwfin, hne⟩ := hc1
  obtain ⟨x, hx⟩ := Option.isSome_iff_exists.mp (List.getLast?_isSome.mpr hne)
  have hlast := walkFwdN_last 4 (nextDay h) _ hx
  have hxmem : x ∈ (walkFwdN 4 (nextDay h)).1 := by
    have hm := List.getLast_mem hne
    have hx2 := List.getLast?_eq_getLast (walkFwdN 4 (nextDay h)).1 hne
    rw [hx2] at hx
    injection hx with hx
    rwa [hx] at hm
  obtain ⟨hxval, hxle, hxlt⟩ := hval.2.2 x hxmem
  have hwfin5 : weekday (walkFwdN 4 (nextDay h)).2 = 5 := by
    have hpx := toOrdinal_nextDay x hxval
    have e1 : (walkFwdN 4 (nextDay h)).2 = nextDay x := hlast.1
    have e2 := hpx.2
    have e3 := hlast.2
    simp only [List.mem_cons, List.mem_singleton, List.not_mem_nil, or_false] at hwfin
    rw [e1] at hwfin ⊢
    unfold weekday at e3 hwfin ⊢
    omega
  have hblock := weekendWalkFwd_len2 _ hval.1 hwfin5
  rw [hblock] at ho
  have hlenpos : 1 ≤ (walkFwdN 4 (nextDay h)).1.length :=
    List.length_pos.mpr hne
  injection ho with ho
  subst ho
  refine ⟨⟨rfl, hlenpos, hlen, by dsimp only, rfl⟩, ?_, ?_⟩
  · intro d hd
    exact ⟨(hval.2.2 d hd).1, (hwk d hd).1, (hwk d hd).2⟩
  · exact hsort.imp fun {a b} hab heq => by
      rw [heq] at hab
      exact lt_irrefl _ hab

theorem yearDays_valid (y : ℕ) (hy : 1 ≤ y) :
    ∀ d ∈ yearDays y, ValidDate d ∧ d.year = y := by
  intro d hd
  simp only [yearDays, List.mem_flatMap, List.mem_map, List.mem_range'_1] at hd
  obtain ⟨m, hm, dd, hdd, rfl⟩ := hd
  refine ⟨⟨hy, ?_, ?_, ?_, ?_⟩, rfl⟩ <;> dsimp only <;> omega

theorem find_long_weekend_shape (y : ℕ) (hy : 2 ≤ y) (holidays : List Date)
    (months : List ℕ) (o : Opportunity)
    (ho : o ∈ find_long_weekend_opportunities y holidays months) :
    OppShape o ∧ OppDatesOK o := by
  simp only [find_long_weekend_opportunities, List.mem_flatMap] at ho
  obtain ⟨cur, hcur, ho⟩ := ho
  obtain ⟨hcv, hcy⟩ := yearDays_valid y (by omega) cur hcur
  split_ifs at ho with h1 h2 h3 h4 h5
  · -- Friday branch: o = the Monday opportunity
    simp only [List.mem_singleton] at ho
    subst ho
    have s1 := toOrdinal_nextDay cur hcv
    have s2 := toOrdinal_nextDay (nextDay cur) s1.1
    have s3 := toOrdinal_nextDay (nextDay (nextDay cur)) s2.1
    have hwm : weekday (nextDay (nextDay (nextDay cur))) = 0 := by
      have e1 := s1.2
      have e2 := s2.2
      have e3 := s3.2
      unfold weekday at h2 ⊢
      omega
    refine ⟨⟨rfl, by norm_num, by norm_num, by norm_num, by norm_num⟩, ?_, by simp⟩
    intro d hd
    simp only [List.mem_singleton] at hd
    subst hd
    exact ⟨s3.1, by omega, by omega⟩
  · simp at ho
  · -- Monday branch: o = the Friday opportunity
    simp only [List.mem_singleton] at ho
    subst ho
    have hord : 366 ≤ toOrdinal cur := by
      refine toOrdinal_ge_of_year2 cur hcv ?_
      omega
    have s1 := toOrdinal_prevDay cur hcv (by omega)
    have s2 := toOrdinal_prevDay (prevDay cur) s1.1 (by have := s1.2; omega)
    have s3 := toOrdinal_prevDay (prevDay (prevDay cur)) s2.1
      (by have e1 := s1.2; have e2 := s2.2; omega)
    have hwf : weekday (prevDay (prevDay (prevDay cur))) = 4 := by
      have e1 := s1.2
      have e2 := s2.2
      have e3 := s3.2
      unfold weekday at h4 ⊢
      omega
    refine ⟨⟨rfl, by norm_num, by norm_num, by norm_num, by norm_num⟩, ?_, by simp⟩
    intro d hd
    simp only [List.mem_singleton] at hd
    subst hd
    exact ⟨s3.1, by omega, by omega⟩
  · simp at ho
  · simp at ho
  · simp at ho

theorem all_opportunities_shape (y : ℕ) (hy : 2 ≤ y) (holidays : List Date)
    (months : List ℕ) (hhol : ∀ h ∈ holidays, ValidDate h ∧ 2 ≤ h.year)
    (o : Opportunity) (ho : o ∈ all_opportunities y holidays months) :
    OppShape o ∧ OppDatesOK o := by
  rcases List.mem_append.mp ho with hb | hl
  · simp only [find_bridge_opportunities, List.mem_flatMap] at hb
    obtain ⟨h, hmem, hb⟩ := hb
    obtain ⟨hval, hyear⟩ := hhol h hmem
    split_ifs at hb with hm
    · rcases List.mem_append.mp hb with h1 | h1
      · rcases Option.mem_toList.mp h1 with h2
        exact analyze_bridge_before_shape h hval hyear o h2
      · rcases Option.mem_toList.mp h1 with h2
        exact analyze_bridge_after_shape h hval o h2
    · simp at hb
  · exact find_long_weekend_shape y hy holidays months o hl

theorem select_loop_days_ge (b : ℕ) (l : List Opportunity) (sel : List Date)
    (used days : ℕ) (ranges : List (List Date)) :
    days ≤ (select_loop b l sel used days ranges).2.1 := by
  induction l generalizing sel used days ranges with
  | nil => simp [select_loop]
  | cons o rest ih =>
    simp only [select_loop]
    split_ifs with h1 h2
    · exact le_trans (by omega) (ih _ _ _ _)
    · exact ih _ _ _ _
    · exact ih _ _ _ _

theorem select_loop_used_le (b : ℕ) (l : List Opportunity) (sel : List Date)
    (used days : ℕ) (ranges : List (List Date)) (h : used ≤ b) :
    (select_loop b l sel used days ranges).2.2 ≤ b := by
  induction l generalizing sel used days ranges with
  | nil => simpa [select_loop] using h
  | cons o rest ih =>
    simp only [select_loop]
    split_ifs with h1 h2
    · exact ih _ _ _ _ h2
    · exact ih _ _ _ _ h
    · exact ih _ _ _ _ h

theorem select_loop_dead (b : ℕ) (l : List Opportunity) (sel : List Date)
    (used days : ℕ) (ranges : List (List Date))
    (h : ∀ o ∈ l, b < used + o.leaves_needed) :
    select_loop b l sel used days ranges = (sel, days, used) := by
  induction l generalizing sel used days ranges with
  | nil => rfl
  | cons o rest ih =>
    simp only [select_loop]
    have hb : ¬ (used + o.leaves_needed ≤ b) := by
      have := h o (List.mem_cons_self o rest)
      omega
    split_ifs with h1
    · exact ih _ _ _ _ fun p hp => h p (List.mem_cons_of_mem o hp)
    · exact ih _ _ _ _ fun p hp => h p (List.mem_cons_of_mem o hp)

theorem select_loop_mono (l : List Opportunity)
    (hpw : List.Pairwise (fun a b => a.leaves_needed ≤ b.leaves_needed) l)
    (n : ℕ) (sel : List Date) (used days : ℕ) (ranges : List (List Date)) :
    (select_loop n l sel used days ranges).2.1 ≤
      (select_loop (n + 1) l sel used days ranges).2.1 := by
  induction l generalizing sel used days ranges with
  | nil => simp [select_loop]
  | cons o rest ih =>
    have hpwt := (List.pairwise_cons.mp hpw).2
    have hhead := (List.pairwise_cons.mp hpw).1
    simp only [select_loop]
    split_ifs with h1 h2 h3
    · exact ih hpwt _ _ _ _
    · omega
    · -- fits in n + 1 but not in n: the n-run is dead from here on
      have hdead : select_loop n rest sel used days ranges = (sel, days, used) := by
        refine select_loop_dead n rest sel used days ranges ?_
        intro p hp
        have := hhead p hp
        omega
      rw [hdead]
      dsimp only
      have := select_loop_days_ge (n + 1) rest (sel ++ o.leave_dates)
        (used + o.leaves_needed) (days + o.total_days_off) (ranges ++ [o.leave_dates])
      omega
    · exact ih hpwt _ _ _ _
    · exact ih hpwt _ _ _ _

theorem select_loop_nodup (b : ℕ) (l : List Opportunity)
    (hl : ∀ o ∈ l, o.leave_dates.Nodup) (sel : List Date) (used days : ℕ)
    (ranges : List (List Date)) (hsel : sel.Nodup)
    (hcover : ∀ d ∈ sel, ∃ r ∈ ranges, d ∈ r) :
    (select_loop b l sel used days ranges).1.Nodup := by
  induction l generalizing sel used days ranges with
  | nil => simpa [select_loop] using hsel
  | cons o rest ih =>
    simp only [select_loop]
    split_ifs with h1 h2
    · refine ih (fun p hp => hl p (List.mem_cons_of_mem o hp)) _ _ _ _ ?_ ?_
      · refine List.Nodup.append hsel (hl o (List.mem_cons_self o rest)) ?_
        intro d hdsel hdo
        obtain ⟨r, hr, hdr⟩ := hcover d hdsel
        have : has_date_overlap o.leave_dates ranges = true := by
          simp only [has_date_overlap, List.any_eq_true, decide_eq_true_eq]
          exact ⟨d, hdo, r, hr, hdr⟩
        rw [h1] at this
        exact Bool.false_ne_true this
      · intro d hd
        rcases List.mem_append.mp hd with hd | hd
        · obtain ⟨r, hr, hdr⟩ := hcover d hd
          exact ⟨r, List.mem_append_left _ hr, hdr⟩
        · exact ⟨o.leave_dates, List.mem_append_right _ (List.mem_singleton_self _), hd⟩
    · exact ih (fun p hp => hl p (List.mem_cons_of_mem o hp)) _ _ _ _ hsel hcover
    · exact ih (fun p hp => hl p (List.mem_cons_of_mem o hp)) _ _ _ _ hsel hcover

theorem select_loop_subset (b : ℕ) (l : List Opportunity) (sel : List Date)
    (used days : ℕ) (ranges : List (List Date)) :
    ∀ d ∈ (select_loop b l sel used days ranges).1,
      d ∈ sel ∨ ∃ o ∈ l, d ∈ o.leave_dates := by
  induction l generalizing sel used days ranges with
  | nil =>
    intro d hd
    simp only [select_loop] at hd
    exact Or.inl hd
  | cons o rest ih =>
    intro d hd
    simp only [select_loop] at hd
    split_ifs at hd with h1 h2
    · rcases ih _ _ _ _ d hd with hsel | ⟨p, hp, hdp⟩
      · rcases List.mem_append.mp hsel with hs | hs
        · exact Or.inl hs
        · exact Or.inr ⟨o, List.mem_cons_self o rest, hs⟩
      · exact Or.inr ⟨p, List.mem_cons_of_mem o hp, hdp⟩
    · rcases ih _ _ _ _ d hd with hsel | ⟨p, hp, hdp⟩
      · exact Or.inl hsel
      · exact Or.inr ⟨p, List.mem_cons_of_mem o hp, hdp⟩
    · rcases ih _ _ _ _ d hd with hsel | ⟨p, hp, hdp⟩
      · exact Or.inl hsel
      · exact Or.inr ⟨p, List.mem_cons_of_mem o hp, hdp⟩

theorem effDesc_trans (a b c : Opportunity) (h1 : effDesc a b = true)
    (h2 : effDesc b c = true) : effDesc a c = true := by
  simp only [effDesc, decide_eq_true_eq] at h1 h2 ⊢
  exact le_trans h2 h1

theorem effDesc_total (a b : Opportunity) : (effDesc a b || effDesc b a) = true := by
  simp only [effDesc, Bool.or_eq_true, decide_eq_true_eq]
  exact le_total b.efficiency a.efficiency

theorem shape_eff_leaves (a b : Opportunity) (ha : OppShape a) (hb : OppShape b)
    (h : effDesc a b = true) : a.leaves_needed ≤ b.leaves_needed := by
  obtain ⟨_, ha1, ha4, hat, hae⟩ := ha
  obtain ⟨_, hb1, hb4, hbt, hbe⟩ := hb
  simp only [effDesc, decide_eq_true_eq] at h
  rw [hae, hbe, hat, hbt] at h
  interval_cases a.leaves_needed <;> interval_cases b.leaves_needed <;> norm_num at h ⊢

theorem insertDesc_perm (o : Opportunity) (l : List Opportunity) :
    List.Perm (insertDesc o l) (o :: l) := by
  induction l with
  | nil => exact List.Perm.refl _
  | cons p rest ih =>
    simp only [insertDesc]
    split_ifs with h
    · exact List.Perm.trans (List.Perm.cons p ih) (List.Perm.swap o p rest)
    · exact List.Perm.refl _

theorem sortDesc_perm (l : List Opportunity) : List.Perm (sortDesc l) l := by
  induction l with
  | nil => exact List.Perm.refl _
  | cons o rest ih =>
    exact List.Perm.trans (insertDesc_perm o (sortDesc rest)) (List.Perm.cons o ih)

theorem insertDesc_sorted (o : Opportunity) (l : List Opportunity)
    (h : List.Pairwise (fun a b => effDesc a b = true) l) :
    List.Pairwise (fun a b => effDesc a b = true) (insertDesc o l) := by
  induction l with
  | nil => simp [insertDesc]
  | cons p rest ih =>
    have hh := (List.pairwise_cons.mp h).1
    have ht := (List.pairwise_cons.mp h).2
    simp only [insertDesc]
    split_ifs with hpo
    · refine List.pairwise_cons.mpr ⟨?_, ih ht⟩
      intro x hx
      have hx' := (insertDesc_perm o rest).mem_iff.mp hx
      rcases List.mem_cons.mp hx' with rfl | hx'
      · simp only [effLt, decide_eq_true_eq] at hpo
        simp only [effDesc, decide_eq_true_eq]
        exact le_of_lt hpo
      · exact hh x hx'
    · have hop : effDesc o p = true := by
        simp only [effLt, decide_eq_true_eq] at hpo
        simp only [effDesc, decide_eq_true_eq]
        exact not_lt.mp hpo
      refine List.pairwise_cons.mpr ⟨?_, h⟩
      intro x hx
      rcases List.mem_cons.mp hx with rfl | hx
      · exact hop
      · exact effDesc_trans o p x hop (hh x hx)

theorem sortDesc_sorted (l : List Opportunity) :
    List.Pairwise (fun a b => effDesc a b = true) (sortDesc l) := by
  induction l with
  | nil => simp [sortDesc]
  | cons o rest ih => exact insertDesc_sorted o (sortDesc rest) ih

theorem sortDesc_leaves_mono (l : List Opportunity) (hshape : ∀ o ∈ l, OppShape o) :
    List.Pairwise (fun a b => a.leaves_needed ≤ b.leaves_needed) (sortDesc l) := by
  have hperm := sortDesc_perm l
  have hshape' : ∀ o ∈ sortDesc l, OppShape o := fun o ho =>
    hshape o (hperm.mem_iff.mp ho)
  exact (sortDesc_sorted l).imp_of_mem fun {a b} hma hmb hr =>
    shape_eff_leaves a b (hshape' a hma) (hshape' b hmb) hr

theorem analyze_bridge_before_leaves_pos (h : Date) (o : Opportunity)
    (ho : analyze_bridge_before h = some o) : 1 ≤ o.leaves_needed := by
  simp only [analyze_bridge_before] at ho
  split_ifs at ho with h1 h2
  injection ho with ho
  subst ho
  exact h2

theorem analyze_bridge_after_leaves_pos (h : Date) (o : Opportunity)
    (ho : analyze_bridge_after h = some o) : 1 ≤ o.leaves_needed := by
  simp only [analyze_bridge_after] at ho
  split_ifs at ho with h1 h2
  injection ho with ho
  subst ho
  exact h2

theorem all_opportunities_leaves_pos (y : ℕ) (holidays : List Date) (months : List ℕ) :
    ∀ o ∈ all_opportunities y holidays months, 1 ≤ o.leaves_needed := by
  intro o ho
  rcases List.mem_append.mp ho with hb | hl
  · simp only [find_bridge_opportunities, List.mem_flatMap] at hb
    obtain ⟨h, hmem, hb⟩ := hb
    split_ifs at hb with hm
    · rcases List.mem_append.mp hb with h1 | h1
      · exact analyze_bridge_before_leaves_pos h o (Option.mem_toList.mp h1)
      · exact analyze_bridge_after_leaves_pos h o (Option.mem_toList.mp h1)
    · simp at hb
  · simp only [find_long_weekend_opportunities, List.mem_flatMap] at hl
    obtain ⟨cur, hcur, hl⟩ := hl
    split_ifs at hl with h1 h2 h3 h4 h5 <;> simp_all

theorem find_bridge_opportunities_empty_months (holidays : List Date) :
    find_bridge_opportunities holidays [] = [] := by
  unfold find_bridge_opportunities
  induction holidays with
  | nil => rfl
  | cons h rest ih => simp [ih]

theorem find_long_weekend_opportunities_empty_months (year : ℕ) (holidays : List Date) :
    find_long_weekend_opportunities year holidays [] = [] := by
  unfold find_long_weekend_opportunities
  induction yearDays year with
  | nil => rfl
  | cons d rest ih => simp [ih]

theorem dBM_mono (y : ℕ) {a b : ℕ} (h : a ≤ b) :
    daysBeforeMonth y a ≤ daysBeforeMonth y b := by
  induction b with
  | zero => simp [Nat.le_zero.mp h]
  | succ b ih =>
    rcases Nat.lt_or_ge a (b + 1) with hl | hg
    · have : daysBeforeMonth y (b + 1) = daysBeforeMonth y b + daysInMonth y b := rfl
      have := ih (by omega)
      omega
    · have : a = b + 1 := by omega
      subst this
      exact le_refl _

theorem yearDays_ord_bounds (y : ℕ) :
    ∀ d ∈ yearDays y,
      toOrdinal ⟨y, 1, 1⟩ ≤ toOrdinal d ∧ toOrdinal d ≤ toOrdinal ⟨y, 12, 31⟩ := by
  intro d hd
  simp only [yearDays, List.mem_flatMap, List.mem_map, List.mem_range'_1] at hd
  obtain ⟨m, hm, dd, hdd, rfl⟩ := hd
  have e0 : daysBeforeMonth y 1 = 0 := rfl
  have e1 : daysBeforeMonth y (m + 1) = daysBeforeMonth y m + daysInMonth y m := rfl
  have e2 : daysBeforeMonth y (m + 1) ≤ daysBeforeMonth y 13 := dBM_mono y (by omega)
  have e3 : daysBeforeMonth y 13 = daysBeforeMonth y 12 + daysInMonth y 12 := rfl
  have e4 : daysInMonth y 12 = 31 := rfl
  dsimp only [toOrdinal]
  omega

theorem long_weekend_within_year (year : ℕ) (hy : 2 ≤ year) (holidays : List Date)
    (months : List ℕ) (o : Opportunity)
    (ho : o ∈ find_long_weekend_opportunities year holidays months) :
    ∀ d ∈ o.leave_dates,
      toOrdinal ⟨year, 1, 1⟩ ≤ toOrdinal d ∧ toOrdinal d ≤ toOrdinal ⟨year, 12, 31⟩ := by
  simp only [find_long_weekend_opportunities, List.mem_flatMap] at ho
  obtain ⟨cur, hcur, ho⟩ := ho
  obtain ⟨hcv, hcy⟩ := yearDays_valid year (by omega) cur hcur
  have hbounds := yearDays_ord_bounds year cur hcur
  split_ifs at ho with h1 h2 h3 h4 h5
  · -- Friday branch, opportunity names the following Monday
    simp only [List.mem_singleton] at ho
    subst ho
    intro d hd
    simp only [List.mem_singleton] at hd
    subst hd
    have s1 := toOrdinal_nextDay cur hcv
    have s2 := toOrdinal_nextDay (nextDay cur) s1.1
    have s3 := toOrdinal_nextDay (nextDay (nextDay cur)) s2.1
    have hup := h3.2.1
    have e1 := s1.2
    have e2 := s2.2
    have e3 := s3.2
    exact ⟨by omega, hup⟩
  · simp at ho
  · -- Monday branch, opportunity names the preceding Friday
    simp only [List.mem_singleton] at ho
    subst ho
    intro d hd
    simp only [List.mem_singleton] at hd
    subst hd
    have hord : 366 ≤ toOrdinal cur := toOrdinal_ge_of_year2 cur hcv (by omega)
    have s1 := toOrdinal_prevDay cur hcv (by omega)
    have s2 := toOrdinal_prevDay (prevDay cur) s1.1 (by have := s1.2; omega)
    have s3 := toOrdinal_prevDay (prevDay (prevDay cur)) s2.1
      (by have e1 := s1.2; have e2 := s2.2; omega)
    have hlo := h5.2.1
    have e1 := s1.2
    have e2 := s2.2
    have e3 := s3.2
    exact ⟨hlo, by omega⟩
  · simp at ho
  · simp at ho
  · simp at ho

/-- Ordinal image of one month's block of `yearDays`. -/
theorem month_block_ordinals (y m : ℕ) :
    ((List.range' 1 (daysInMonth y m)).map fun d => toOrdinal ⟨y, m, d⟩) =
      List.range' (daysBeforeYear y + daysBeforeMonth y m + 1) (daysInMonth y m) := by
  have hf : (fun d => toOrdinal ⟨y, m, d⟩) =
      fun d => (daysBeforeYear y + daysBeforeMonth y m) + d := rfl
  rw [hf, List.map_add_range']

/-- The ordinals of the first `k` months of the year scan form one
contiguous range. -/
theorem yearDays_prefix_ordinals (y k : ℕ) :
    (((List.range' 1 k).flatMap fun m =>
        (List.range' 1 (daysInMonth y m)).map fun d => (⟨y, m, d⟩ : Date)).map toOrdinal) =
      List.range' (daysBeforeYear y + 1) (daysBeforeMonth y (k + 1)) := by
  induction k with
  | zero => rfl
  | succ k ih =>
    rw [List.range'_concat, List.flatMap_append, List.map_append, ih,
      List.flatMap_cons, List.flatMap_nil, List.append_nil, List.map_map]
    simp only [Nat.one_mul]
    have hcomp : (toOrdinal ∘ fun d => (⟨y, 1 + k, d⟩ : Date)) =
        fun d => toOrdinal ⟨y, 1 + k, d⟩ := rfl
    rw [hcomp, month_block_ordinals]
    have h1k : 1 + k = k + 1 := Nat.add_comm 1 k
    rw [h1k]
    have hstart : daysBeforeYear y + daysBeforeMonth y (k + 1) + 1 =
        (daysBeforeYear y + 1) + 1 * daysBeforeMonth y (k + 1) := by omega
    rw [hstart, List.range'_append]
    have hsum : daysBeforeMonth y (k + 1 + 1) =
        daysInMonth y (k + 1) + daysBeforeMonth y (k + 1) := by
      have h : daysBeforeMonth y (k + 1 + 1) =
          daysBeforeMonth y (k + 1) + daysInMonth y (k + 1) := rfl
      omega
    rw [hsum]

/-- Ordinal image of the whole year scan. -/
theorem yearDays_ordinals (y : ℕ) :
    (yearDays y).map toOrdinal =
      List.range' (daysBeforeYear y + 1) (daysBeforeMonth y 13) := by
  exact yearDays_prefix_ordinals y 12

theorem countP_weekendOrd_window (s : ℕ) :
    (List.range' s 7).countP weekendOrd = 2 := by
  have h7 : List.range' s 7 = [s, s + 1, s + 2, s + 3, s + 4, s + 5, s + 6] := rfl
  rw [h7]
  simp only [List.countP_cons, List.countP_nil, weekendOrd, List.mem_cons,
    List.not_mem_nil, or_false, decide_eq_true_eq]
  obtain ⟨r, hr, hsr⟩ : ∃ r, r < 7 ∧ s % 7 = r := ⟨s % 7, by omega, rfl⟩
  have e0 : (s + 6) % 7 = (r + 6) % 7 := by omega
  have e1 : (s + 1 + 6) % 7 = (r + 1 + 6) % 7 := by omega
  have e2 : (s + 2 + 6) % 7 = (r + 2 + 6) % 7 := by omega
  have e3 : (s + 3 + 6) % 7 = (r + 3 + 6) % 7 := by omega
  have e4 : (s + 4 + 6) % 7 = (r + 4 + 6) % 7 := by omega
  have e5 : (s + 5 + 6) % 7 = (r + 5 + 6) % 7 := by omega
  have e6 : (s + 6 + 6) % 7 = (r + 6 + 6) % 7 := by omega
  rw [e0, e1, e2, e3, e4, e5, e6]
  interval_cases r <;> norm_num

theorem countP_weekendOrd_blocks (s k : ℕ) :
    (List.range' s (7 * k)).countP weekendOrd = 2 * k := by
  induction k generalizing s with
  | zero => simp
  | succ k ih =>
    have happ := List.range'_append s 7 (7 * k) 1
    have hsplit : List.range' s (7 * (k + 1)) =
        List.range' s 7 ++ List.range' (s + 7) (7 * k) := by
      rw [show 7 * (k + 1) = 7 * k + 7 by ring]
      rw [show s + 7 = s + 1 * 7 by ring]
      exact happ.symm
    rw [hsplit, List.countP_append, countP_weekendOrd_window, ih]
    ring

theorem countP_weekendOrd_year (s L : ℕ) (h365 : L = 365 ∨ L = 366) :
    104 ≤ (List.range' s L).countP weekendOrd ∧
      (List.range' s L).countP weekendOrd ≤ 106 := by
  obtain ⟨rem, hrem, hL⟩ : ∃ rem, rem ≤ 2 ∧ L = 7 * 52 + rem := by
    rcases h365 with rfl | rfl
    · exact ⟨1, by norm_num, by norm_num⟩
    · exact ⟨2, by norm_num, by norm_num⟩
  subst hL
  have happ := List.range'_append s (7 * 52) rem 1
  have hsplit : List.range' s (7 * 52 + rem) =
      List.range' s (7 * 52) ++ List.range' (s + 7 * 52) rem := by
    rw [show s + 7 * 52 = s + 1 * (7 * 52) by ring]
    rw [show 7 * 52 + rem = rem + 7 * 52 by ring]
    exact happ.symm
  rw [hsplit, List.countP_append, countP_weekendOrd_blocks]
  have hb : (List.range' (s + 7 * 52) rem).countP weekendOrd ≤ rem := by
    have h1 := @List.countP_le_length ℕ weekendOrd (List.range' (s + 7 * 52) rem)
    have h2 : (List.range' (s + 7 * 52) rem).length = rem := List.length_range' _ _ _
    omega
  omega

theorem get_weekends_len_eq_countP (y : ℕ) :
    (get_weekends y).length =
      (List.range' (daysBeforeYear y + 1) (daysBeforeMonth y 13)).countP weekendOrd := by
  unfold get_weekends
  rw [← List.countP_eq_length_filter]
  have hmap : ((yearDays y).map toOrdinal).countP weekendOrd =
      (yearDays y).countP (weekendOrd ∘ toOrdinal) := List.countP_map _ _ _
  rw [← yearDays_ordinals, hmap]
  rfl

/-! ## Claim theorems -/

set_option maxRecDepth 200000

unseal Rat.mul Rat.inv in
/-- C2 (counterexample): with `num_leaves = 0` the core does not raise
any error: the call returns the ordinary empty result `([], 0, 0)`,
and the opportunity list for the same inputs is nonempty, so detection
did compute opportunities, contrary to the claim. -/
theorem zero_budget_no_error_and_detection_runs :
    get_optimal_leave_days 2026 [] 0 (some [1]) = ([], 0, 0) ∧
      all_opportunities 2026 [] [1] ≠ [] := by
  constructor
  · decide
  · decide

/-- C2 (amended): the core performs no budget validation: with
`num_leaves = 0`, detection runs as usual, but the selector accepts no
opportunity (every opportunity needs at least one leave day), so the
call returns empty `selected_leaves`, `total_days_off = 0` and
`leaves_used = 0` instead of raising `InvalidBudget`. -/
theorem zero_budget_selects_nothing (year : ℕ) (holidays : List Date)
    (pm : Option (List ℕ)) :
    get_optimal_leave_days year holidays 0 pm = ([], 0, 0) := by
  unfold get_optimal_leave_days
  apply select_loop_dead
  intro o ho
  have h1 := all_opportunities_leaves_pos year holidays _ o
    ((sortDesc_perm _).mem_iff.mp ho)
  omega

unseal Rat.mul Rat.inv in
/-- C3 (counterexample): passing an empty preferred-month list is not
the same as passing all twelve months: at year 2026 with no holidays
and one leave day, the empty list yields the empty result while the
full list yields a long weekend. -/
theorem empty_months_differs_from_all_months :
    get_optimal_leave_days 2026 [] 1 (some []) ≠
      get_optimal_leave_days 2026 [] 1 (some (List.range' 1 12)) := by
  decide

/-- C3 (amended): the all-months default substitution happens only when
`preferred_months` is absent (`None`); an explicitly empty list is
passed through to detection, where both passes filter every date out
and the call returns the empty result `([], 0, 0)`. -/
theorem empty_months_passed_through :
    (∀ (year : ℕ) (holidays : List Date) (num_leaves : ℕ),
      get_optimal_leave_days year holidays num_leaves (some []) = ([], 0, 0)) ∧
    (∀ (year : ℕ) (holidays : List Date) (num_leaves : ℕ),
      get_optimal_leave_days year holidays num_leaves none =
        get_optimal_leave_days year holidays num_leaves
          (some (List.range' 1 12))) := by
  constructor
  · intro year holidays num_leaves
    unfold get_optimal_leave_days all_opportunities
    simp only [Option.getD_some]
    rw [find_bridge_opportunities_empty_months,
      find_long_weekend_opportunities_empty_months]
    rfl
  · intro year holidays num_leaves
    rfl

unseal Rat.mul Rat.inv in
/-- C1 (counterexample): the two long-weekend opportunities of the same
Friday/Monday pair (Friday Jan 2 2026 / Monday Jan 5 2026) are both
emitted and are NOT treated as overlapping by the selector: with a
budget of two leave days both are accepted and the pair contributes 8
total days off, not at most 4. -/
theorem long_weekend_pair_double_counted :
    ((⟨2026, 1, 5⟩ : Date) ∈ (get_optimal_leave_days 2026 [] 2 (some [1])).1 ∧
      (⟨2026, 1, 2⟩ : Date) ∈ (get_optimal_leave_days 2026 [] 2 (some [1])).1 ∧
      (get_optimal_leave_days 2026 [] 2 (some [1])).2.1 = 8) ∧
    (⟨[⟨2026, 1, 5⟩], 4, 1, 4⟩ : Opportunity) ∈
      find_long_weekend_opportunities 2026 [] [1] ∧
    (⟨[⟨2026, 1, 2⟩], 4, 1, 4⟩ : Opportunity) ∈
      find_long_weekend_opportunities 2026 [] [1] := by
  refine ⟨⟨?_, ?_, ?_⟩, ?_, ?_⟩ <;> decide

unseal Rat.mul Rat.inv in
/-- C1 (amended): the selector treats the two opportunities of a
Friday/Monday pair as non-overlapping, because their leave-date sets
(the Monday alone and the Friday alone) share no date; it can therefore
accept both, and the pair then contributes 8 total days off (4 + 4),
double-counting the shared weekend. -/
theorem long_weekend_pair_not_overlapping :
    (∀ F M : Date, F ≠ M → has_date_overlap [F] [[M]] = false) ∧
    ((⟨2026, 1, 5⟩ : Date) ∈ (get_optimal_leave_days 2026 [] 2 (some [1])).1 ∧
      (⟨2026, 1, 2⟩ : Date) ∈ (get_optimal_leave_days 2026 [] 2 (some [1])).1 ∧
      (get_optimal_leave_days 2026 [] 2 (some [1])).2.1 = 8) := by
  constructor
  · intro F M hne
    simp [has_date_overlap, hne]
  · refine ⟨?_, ?_, ?_⟩ <;> decide

/-- C1 (witness for the amended theorem): the leave dates of the
Fri Jan 2 2026 / Mon Jan 5 2026 pair are distinct, so the overlap test
reports no overlap between them. -/
theorem long_weekend_pair_not_overlapping_witness :
    (⟨2026, 1, 2⟩ : Date) ≠ (⟨2026, 1, 5⟩ : Date) ∧
      has_date_overlap [⟨2026, 1, 2⟩] [[⟨2026, 1, 5⟩]] = false :=
  ⟨by decide, long_weekend_pair_not_overlapping.1 ⟨2026, 1, 2⟩ ⟨2026, 1, 5⟩ (by decide)⟩

/-- C4: with year, holidays and preferred months fixed, increasing the
leave budget from `n` to `n + 1` never decreases the returned
`total_days_off`: the efficiency-sorted opportunity list has
non-decreasing `leaves_needed`, so once the smaller budget skips an
opportunity for budget reasons it can accept nothing further, while the
larger budget accepts that opportunity. -/
theorem budget_monotone (year : ℕ) (holidays : List Date) (pm : Option (List ℕ))
    (n : ℕ) (hy : 2 ≤ year)
    (hhol : ∀ h ∈ holidays, ValidDate h ∧ 2 ≤ h.year) (_hn : 1 ≤ n) :
    (get_optimal_leave_days year holidays n pm).2.1 ≤
      (get_optimal_leave_days year holidays (n + 1) pm).2.1 := by
  unfold get_optimal_leave_days
  apply select_loop_mono
  apply sortDesc_leaves_mono
  intro o ho
  exact (all_opportunities_shape year hy holidays _ hhol o ho).1

unseal Rat.mul Rat.inv in
/-- C4 (witness): at year 2026 with the single holiday Jan 1 and
preferred month January, raising the budget from 1 to 2 does not
decrease the total days off. -/
theorem budget_monotone_witness :
    (2 ≤ 2026 ∧ 1 ≤ 1) ∧
      (get_optimal_leave_days 2026 [⟨2026, 1, 1⟩] 1 (some [1])).2.1 ≤
        (get_optimal_leave_days 2026 [⟨2026, 1, 1⟩] (1 + 1) (some [1])).2.1 :=
  ⟨⟨by norm_num, le_refl 1⟩,
    budget_monotone 2026 [⟨2026, 1, 1⟩] (some [1]) 1 (by norm_num)
      (by decide) (le_refl 1)⟩

/-- C5: the selector never exceeds the budget — the returned
`leaves_used` is at most `num_leaves` for every input — and an
opportunity that does not overlap but would exceed the remaining budget
is skipped without terminating the scan: the loop on it reduces to the
loop on the remaining opportunities with unchanged state. -/
theorem selector_budget_and_skip :
    (∀ (year : ℕ) (holidays : List Date) (num_leaves : ℕ) (pm : Option (List ℕ)),
      (get_optimal_leave_days year holidays num_leaves pm).2.2 ≤ num_leaves) ∧
    (∀ (num_leaves : ℕ) (o : Opportunity) (rest : List Opportunity)
      (sel : List Date) (used days : ℕ) (ranges : List (List Date)),
      has_date_overlap o.leave_dates ranges = false →
      num_leaves < used + o.leaves_needed →
      select_loop num_leaves (o :: rest) sel used days ranges =
        select_loop num_leaves rest sel used days ranges) := by
  constructor
  · intro year holidays num_leaves pm
    unfold get_optimal_leave_days
    exact select_loop_used_le _ _ _ _ _ _ (Nat.zero_le _)
  · intro num_leaves o rest sel used days ranges hov hbud
    simp only [select_loop]
    rw [if_pos hov, if_neg (by omega)]

/-- C5 (witness): a concrete call stays within its budget of 3, and a
concrete over-budget non-overlapping opportunity is skipped with the
scan continuing. -/
theorem selector_budget_and_skip_witness :
    (get_optimal_leave_days 2026 [] 3 (some [1])).2.2 ≤ 3 ∧
      (has_date_overlap ([⟨2026, 1, 5⟩] : List Date) [] = false ∧
        select_loop 0 [⟨[⟨2026, 1, 5⟩], 4, 1, 4⟩] [] 0 0 [] =
          select_loop 0 [] [] 0 0 []) :=
  ⟨selector_budget_and_skip.1 2026 [] 3 (some [1]),
    by decide,
    selector_budget_and_skip.2 0 ⟨[⟨2026, 1, 5⟩], 4, 1, 4⟩ [] [] 0 0 []
      (by decide) (by decide)⟩

/-- C6: the dates returned in `selected_leaves` contain no duplicate —
each accepted opportunity is checked for any shared date against all
already-selected leave-date ranges and skipped entirely on overlap, and
each opportunity's own leave dates are pairwise distinct. -/
theorem selected_leaves_nodup (year : ℕ) (holidays : List Date) (num_leaves : ℕ)
    (pm : Option (List ℕ)) (hy : 2 ≤ year)
    (hhol : ∀ h ∈ holidays, ValidDate h ∧ 2 ≤ h.year) :
    (get_optimal_leave_days year holidays num_leaves pm).1.Nodup := by
  unfold get_optimal_leave_days
  apply select_loop_nodup
  · intro o ho
    exact (all_opportunities_shape year hy holidays _ hhol o
      ((sortDesc_perm _).mem_iff.mp ho)).2.2
  · exact List.nodup_nil
  · intro d hd
    exact absurd hd (List.not_mem_nil d)

unseal Rat.mul Rat.inv in
/-- C6 (witness): the recommended dates of a concrete call contain no
duplicates. -/
theorem selected_leaves_nodup_witness :
    (get_optimal_leave_days 2026 [⟨2026, 1, 1⟩] 3 (some [1])).1.Nodup :=
  selected_leaves_nodup 2026 [⟨2026, 1, 1⟩] 3 (some [1]) (by norm_num) (by decide)

/-- C7: every opportunity emitted by bridge detection or long-weekend
detection has `leaves_needed` equal to the number of its leave dates,
stores exactly the quotient `total_days_off / leaves_needed` as its
efficiency, and that efficiency is at least 1. -/
theorem opportunity_invariants (year : ℕ) (holidays : List Date)
    (months : List ℕ) (hy : 2 ≤ year)
    (hhol : ∀ h ∈ holidays, ValidDate h ∧ 2 ≤ h.year)
    (o : Opportunity) (ho : o ∈ all_opportunities year holidays months) :
    o.leaves_needed = o.leave_dates.length ∧
    o.efficiency = (o.total_days_off : ℚ) / (o.leaves_needed : ℚ) ∧
    1 ≤ o.efficiency := by
  obtain ⟨hlen, h1, h4, ht, he⟩ := (all_opportunities_shape year hy holidays
    months hhol o ho).1
  refine ⟨hlen, he, ?_⟩
  rw [he]
  have hk : (0 : ℚ) < (o.leaves_needed : ℚ) := by
    exact_mod_cast Nat.lt_of_lt_of_le Nat.zero_lt_one h1
  rw [one_le_div hk]
  have : o.leaves_needed ≤ o.total_days_off := by omega
  exact_mod_cast this

unseal Rat.mul Rat.inv in
/-- C7 (witness): the bridge-after opportunity of holiday Jan 1 2026
satisfies the three invariants. -/
theorem opportunity_invariants_witness :
    (⟨[⟨2026, 1, 2⟩], 4, 1, 4⟩ : Opportunity).leaves_needed =
        (⟨[⟨2026, 1, 2⟩], 4, 1, 4⟩ : Opportunity).leave_dates.length ∧
      (⟨[⟨2026, 1, 2⟩], 4, 1, 4⟩ : Opportunity).efficiency =
        (((⟨[⟨2026, 1, 2⟩], 4, 1, 4⟩ : Opportunity).total_days_off : ℚ) /
          ((⟨[⟨2026, 1, 2⟩], 4, 1, 4⟩ : Opportunity).leaves_needed : ℚ)) ∧
      1 ≤ (⟨[⟨2026, 1, 2⟩], 4, 1, 4⟩ : Opportunity).efficiency :=
  opportunity_invariants 2026 [⟨2026, 1, 1⟩] [1] (by norm_num) (by decide)
    ⟨[⟨2026, 1, 2⟩], 4, 1, 4⟩ (by decide)

/-- C9: every date recommended by `get_optimal_leave_days` falls on a
weekday: the bridge walks collect only non-weekend days and
long-weekend detection emits only a Monday or a Friday. -/
theorem recommended_dates_are_weekdays (year : ℕ) (holidays : List Date)
    (num_leaves : ℕ) (pm : Option (List ℕ)) (hy : 2 ≤ year)
    (hhol : ∀ h ∈ holidays, ValidDate h ∧ 2 ≤ h.year) :
    ∀ d ∈ (get_optimal_leave_days year holidays num_leaves pm).1,
      weekday d ≠ 5 ∧ weekday d ≠ 6 := by
  intro d hd
  unfold get_optimal_leave_days at hd
  rcases select_loop_subset _ _ _ _ _ _ d hd with h | ⟨o, ho, hdo⟩
  · exact absurd h (List.not_mem_nil d)
  · have hmem := (sortDesc_perm _).mem_iff.mp ho
    have hfacts := (all_opportunities_shape year hy holidays _ hhol o hmem).2.1 d hdo
    exact ⟨hfacts.2.1, hfacts.2.2⟩

unseal Rat.mul Rat.inv in
/-- C9 (witness): in a concrete run, the recommended date
Mon Jan 5 2026 is neither a Saturday nor a Sunday. -/
theorem recommended_dates_are_weekdays_witness :
    weekday ⟨2026, 1, 5⟩ ≠ 5 ∧ weekday ⟨2026, 1, 5⟩ ≠ 6 :=
  recommended_dates_are_weekdays 2026 [] 2 (some [1]) (by norm_num) (by decide)
    ⟨2026, 1, 5⟩ (by decide)

unseal Rat.mul Rat.inv in
/-- C10: the bridge walks are not bounded to the requested year — with
the holiday Thu Jan 1 2026, the optimizer for 2026 recommends
Mon Dec 29 2025, a date of the adjacent calendar year — while
long-weekend detection restricts every emitted leave date to lie
between Jan 1 and Dec 31 of the requested year. -/
theorem bridge_walks_cross_year_boundary :
    ((⟨2025, 12, 29⟩ : Date) ∈
        (get_optimal_leave_days 2026 [⟨2026, 1, 1⟩] 20 (some [1])).1 ∧
      (⟨2025, 12, 29⟩ : Date).year ≠ 2026) ∧
    (∀ (year : ℕ), 2 ≤ year → ∀ (holidays : List Date) (months : List ℕ)
      (o : Opportunity), o ∈ find_long_weekend_opportunities year holidays months →
      ∀ d ∈ o.leave_dates,
        toOrdinal ⟨year, 1, 1⟩ ≤ toOrdinal d ∧
          toOrdinal d ≤ toOrdinal ⟨year, 12, 31⟩) := by
  constructor
  · exact ⟨by decide, by decide⟩
  · intro year hy holidays months o ho
    exact long_weekend_within_year year hy holidays months o ho

unseal Rat.mul Rat.inv in
/-- C10 (witness): the long-weekend opportunity naming Mon Jan 5 2026
has its leave date within year 2026. -/
theorem bridge_walks_cross_year_boundary_witness :
    toOrdinal ⟨2026, 1, 1⟩ ≤ toOrdinal ⟨2026, 1, 5⟩ ∧
      toOrdinal ⟨2026, 1, 5⟩ ≤ toOrdinal ⟨2026, 12, 31⟩ :=
  bridge_walks_cross_year_boundary.2 2026 (by norm_num) [] [1]
    ⟨[⟨2026, 1, 5⟩], 4, 1, 4⟩ (by decide) ⟨2026, 1, 5⟩ (by decide)

/-- C8 (counterexample): the year 2028 — a leap year whose January 1
falls on a Saturday — has 106 weekend dates, not 104 or 105. -/
theorem weekends_2028_count :
    ¬ ((get_weekends 2028).length = 104 ∨ (get_weekends 2028).length = 105) := by
  decide

/-- C8 (amended): for every year, `get_weekends` returns 104, 105 or
106 dates, depending on the year's length and on which weekday
January 1 falls; 106 occurs exactly for leap years beginning on a
Saturday, such as 2028. -/
theorem weekends_count_104_to_106 (year : ℕ) :
    (get_weekends year).length = 104 ∨ (get_weekends year).length = 105 ∨
      (get_weekends year).length = 106 := by
  have hlen := get_weekends_len_eq_countP year
  have h13 := daysBeforeMonth_13 year
  have hdays : daysBeforeMonth year 13 = 365 ∨ daysBeforeMonth year 13 = 366 := by
    by_cases h : isLeap year <;> simp [h] at h13 <;> omega
  have hcount := countP_weekendOrd_year (daysBeforeYear year + 1)
    (daysBeforeMonth year 13) hdays
  omega
